import Mathlib

/-!
Shallow embedding of `pyminer.py`: the byte-order transforms (`bytereverse`,
`bufreverse`, `wordreverse`), the double-SHA-256 search loop (`Miner.work`),
the submission splice (`Miner.submit_work`) and the per-cycle recalibration
and fetch handling (`Miner.iterate`, `BitcoinRPC.rpc`).

Bytes are modelled as `Nat` (values below 256), byte strings as `List Nat`,
hex text as `List Char`, wall-clock durations as `ℚ`.  Python exceptions are
modelled as `Option`/`Except` failures.
-/

namespace Pyminer

/-- Source `uint32`: `x & 0xffffffff`. -/
def uint32 (x : Nat) : Nat := x &&& 0xffffffff

/-- Source `bytereverse`: 32-bit byte swap via shifts, masks and or. -/
def bytereverse (x : Nat) : Nat :=
  uint32 ((x <<< 24) ||| ((x <<< 8) &&& 0x00ff0000) ||| ((x >>> 8) &&& 0x0000ff00) ||| (x >>> 24))

/-- Model of `struct.unpack('@I', ...)` on four bytes: native little-endian 32-bit decode. -/
def unpackLE4 (b0 b1 b2 b3 : Nat) : Nat := b0 ||| (b1 <<< 8) ||| (b2 <<< 16) ||| (b3 <<< 24)

/-- Model of `struct.pack('@I', w)`: native little-endian 32-bit encode into four bytes. -/
def packLE4 (w : Nat) : List Nat :=
  [w &&& 0xff, (w >>> 8) &&& 0xff, (w >>> 16) &&& 0xff, (w >>> 24) &&& 0xff]

/-- Source `bufreverse`: byte-swap each 4-byte word.  A trailing
chunk shorter than 4 bytes makes `struct.unpack('@I', ...)` raise
`struct.error`, modelled as `none`. -/
def bufreverse : List Nat → Option (List Nat)
  | [] => some []
  | b0 :: b1 :: b2 :: b3 :: rest =>
      (bufreverse rest).map (fun t => packLE4 (bytereverse (unpackLE4 b0 b1 b2 b3)) ++ t)
  | _ => none

/-- The 4-slices `in_buf[i:i+4]` for `i in range(0, len, 4)`: chunks of four,
the last possibly shorter. -/
def chunks4 {α : Type} : List α → List (List α)
  | [] => []
  | [a] => [[a]]
  | [a, b] => [[a, b]]
  | [a, b, c] => [[a, b, c]]
  | a :: b :: c :: d :: rest => [a, b, c, d] :: chunks4 rest

/-- Source `wordreverse`: reverse the order of the 4-byte slices. -/
def wordreverse (l : List Nat) : List Nat := ((chunks4 l).reverse).flatten

/-- Model of `int(buf.hex(), 16)`: the big-endian integer value of a byte string. -/
def beVal (l : List Nat) : Nat := l.foldl (fun a b => a * 256 + b) 0

/-- Model of `struct.pack("<I", n)`: the 4-byte little-endian encoding of a nonce. -/
def leBytes4 (n : Nat) : List Nat :=
  [n % 256, n / 256 % 256, n / 65536 % 256, n / 16777216 % 256]

/-- Model of `buf[-4:]`: the last four bytes (whole buffer when shorter than 4). -/
def lastFour (l : List Nat) : List Nat := l.drop (l.length - 4)

/-! ### SHA-256

`hashlib.sha256` is an external primitive for the repository (the spec treats
the base hash as a trusted cryptographic primitive); it is modelled here by
the FIPS 180-4 SHA-256 algorithm over byte lists. -/

/-- SHA-256 round constants (FIPS 180-4), written in decimal. -/
def shaK : List Nat :=
  [1116352408, 1899447441, 3049323471, 3921009573, 961987163,
   1508970993, 2453635748, 2870763221, 3624381080, 310598401,
   607225278, 1426881987, 1925078388, 2162078206, 2614888103,
   3248222580, 3835390401, 4022224774, 264347078, 604807628,
   770255983, 1249150122, 1555081692, 1996064986, 2554220882,
   2821834349, 2952996808, 3210313671, 3336571891, 3584528711,
   113926993, 338241895, 666307205, 773529912, 1294757372,
   1396182291, 1695183700, 1986661051, 2177026350, 2456956037,
   2730485921, 2820302411, 3259730800, 3345764771, 3516065817,
   3600352804, 4094571909, 275423344, 430227734, 506948616,
   659060556, 883997877, 958139571, 1322822218, 1537002063,
   1747873779, 1955562222, 2024104815, 2227730452, 2361852424,
   2428436474, 2756734187, 3204031479, 3329325298]

/-- SHA-256 initial hash state (FIPS 180-4), written in decimal. -/
def shaH0 : List Nat :=
  [1779033703, 3144134277, 1013904242,
   2773480762, 1359893119, 2600822924,
   528734635, 1541459225]

/-- Rotation right on 32 bits. -/
def rotr32 (n x : Nat) : Nat := uint32 ((x >>> n) ||| (x <<< (32 - n)))

/-- The σ0 message-schedule function. -/
def ssig0 (x : Nat) : Nat := (rotr32 7 x) ^^^ (rotr32 18 x) ^^^ (x >>> 3)

/-- The σ1 message-schedule function. -/
def ssig1 (x : Nat) : Nat := (rotr32 17 x) ^^^ (rotr32 19 x) ^^^ (x >>> 10)

/-- The Σ0 round function. -/
def bsig0 (x : Nat) : Nat := (rotr32 2 x) ^^^ (rotr32 13 x) ^^^ (rotr32 22 x)

/-- The Σ1 round function. -/
def bsig1 (x : Nat) : Nat := (rotr32 6 x) ^^^ (rotr32 11 x) ^^^ (rotr32 25 x)

/-- Ch function; bitwise not is xor with the 32-bit all-ones mask. -/
def chf (x y z : Nat) : Nat := (x &&& y) ^^^ ((x ^^^ 0xffffffff) &&& z)

/-- Maj function. -/
def majf (x y z : Nat) : Nat := (x &&& y) ^^^ (x &&& z) ^^^ (y &&& z)

/-- Extend a 16-word block to the 64-word message schedule, one word per step. -/
def extendW (w : List Nat) : Nat → List Nat
  | 0 => w
  | n + 1 =>
      let t := w.length
      extendW
        (w ++ [(ssig1 (w.getD (t - 2) 0) + w.getD (t - 7) 0 +
                ssig0 (w.getD (t - 15) 0) + w.getD (t - 16) 0) % 4294967296]) n

/-- One SHA-256 round on the 8-word working state; the pair carries
the round constant and the schedule word. -/
def shaRound (s : List Nat) (kw : Nat × Nat) : List Nat :=
  match s with
  | [a, b, c, d, e, f, g, h] =>
      let t1 := (h + bsig1 e + chf e f g + kw.1 + kw.2) % 4294967296
      let t2 := (bsig0 a + majf a b c) % 4294967296
      [(t1 + t2) % 4294967296, a, b, c, (d + t1) % 4294967296, e, f, g]
  | _ => s

/-- SHA-256 compression of one 16-word block into the running state. -/
def compress (h : List Nat) (block : List Nat) : List Nat :=
  let w := extendW block 48
  let fin := (shaK.zip w).foldl shaRound h
  (h.zip fin).map (fun p => (p.1 + p.2) % 4294967296)

/-- The 8-byte big-endian encoding of the message bit length. -/
def beBytes8 (n : Nat) : List Nat :=
  [n / 72057594037927936 % 256, n / 281474976710656 % 256, n / 1099511627776 % 256,
   n / 4294967296 % 256, n / 16777216 % 256, n / 65536 % 256, n / 256 % 256, n % 256]

/-- SHA-256 padding: append 0x80, zeros to 56 mod 64, then the bit length. -/
def shaPad (msg : List Nat) : List Nat :=
  let len := msg.length
  let zeros := (64 - ((len + 9) % 64)) % 64
  msg ++ [0x80] ++ List.replicate zeros 0 ++ beBytes8 (8 * len)

/-- Big-endian 32-bit words of a byte string. -/
def toWordsBE (l : List Nat) : List Nat := (chunks4 l).map beVal

/-- The 16-word blocks of a word list, with a structural fuel argument so
that the definition evaluates inside the kernel. -/
def chunks16F : Nat → List Nat → List (List Nat)
  | _, [] => []
  | 0, _ => []
  | fuel + 1, l => l.take 16 :: chunks16F fuel (l.drop 16)

/-- The 16-word blocks of a word list. -/
def chunks16 (l : List Nat) : List (List Nat) := chunks16F l.length l

/-- The four big-endian bytes of a 32-bit word. -/
def wordBytesBE (w : Nat) : List Nat :=
  [w / 16777216 % 256, w / 65536 % 256, w / 256 % 256, w % 256]

/-- SHA-256 of a byte string (model of `hashlib.sha256(...).digest()`). -/
def sha256 (msg : List Nat) : List Nat :=
  (((chunks16 (toWordsBE (shaPad msg))).foldl compress shaH0).map wordBytesBE).flatten

/-! ### The search loop of `Miner.work` -/

/-- The per-nonce double digest: the primed 76-byte prefix extended with the
4-byte little-endian nonce, hashed, and hashed again (`hash1_o`/`hash_o`). -/
def digest2 (H : List Nat → List Nat) (pref : List Nat) (nonce : Nat) : List Nat :=
  H (H (pref ++ leBytes4 nonce))

/-- The transformed integer value compared against the target: `bufreverse`,
then `wordreverse`, then `int(hex, 16)`.  `none` when `bufreverse` raises. -/
def transformedVal (H : List Nat → List Nat) (pref : List Nat) (nonce : Nat) : Option Nat :=
  (bufreverse (digest2 H pref nonce)).map (fun hv => beVal (wordreverse hv))

/-- The `for nonce in range(...)` loop of `Miner.work`, from a current nonce
with a structural count of remaining iterations.  Exhaustion returns
`(last nonce + 1, none)`; a qualifying nonce returns `(nonce + 1, nonce_bin)`.
An exception inside the body is `none`. -/
def searchAux (H : List Nat → List Nat) (pref : List Nat) (target : Nat) :
    Nat → Nat → Option (Nat × Option (List Nat))
  | nonce, 0 => some (nonce, none)
  | nonce, fuel + 1 =>
      let hashVal := digest2 H pref nonce
      if lastFour hashVal ≠ [0, 0, 0, 0] then
        searchAux H pref target (nonce + 1) fuel
      else
        match bufreverse hashVal with
        | none => none
        | some hv =>
          if beVal (wordreverse hv) < target then some (nonce + 1, some (leBytes4 nonce))
          else searchAux H pref target (nonce + 1) fuel

/-- The nonce search of `Miner.work` over `range(bound)` for a given base hash
`H` (`hashlib.sha256` in the source).  With `bound = 0` the loop body never
runs and the trailing `return nonce + 1, None` reads the never-assigned loop
variable, raising `UnboundLocalError`: modelled as `none`. -/
def searchLoop (H : List Nat → List Nat) (pref : List Nat) (target : Nat) (bound : Nat) :
    Option (Nat × Option (List Nat)) :=
  if bound = 0 then none else searchAux H pref target 0 bound

/-! ### Hex text, `Miner.work` preamble, and the submission splice -/

/-- The value of one hex digit (`bytes.fromhex` accepts both cases). -/
def hexDigitVal (c : Char) : Option Nat :=
  if '0' ≤ c ∧ c ≤ '9' then some (c.toNat - 48)
  else if 'a' ≤ c ∧ c ≤ 'f' then some (c.toNat - 97 + 10)
  else if 'A' ≤ c ∧ c ≤ 'F' then some (c.toNat - 65 + 10)
  else none

def hexDecode : List Char → Option (List Nat)
  | [] => some []
  | c1 :: c2 :: rest => do
      let hi ← hexDigitVal c1
      let lo ← hexDigitVal c2
      let t ← hexDecode rest
      pure ((16 * hi + lo) :: t)
  | [_] => none

/-- A lowercase hex digit: digits start at code 48, letters at code 97. -/
def hexChar (n : Nat) : Char :=
  if n < 10 then Char.ofNat (48 + n) else Char.ofNat (87 + n)

/-- Model of `buf.hex()`: two lowercase hex characters per byte. -/
def bytesToHex (l : List Nat) : List Char :=
  (l.map (fun b => [hexChar (b / 16), hexChar (b % 16)])).flatten

/-- Model of `Miner.work`: hex-decode and `bufreverse` the header text, take the
76-byte prefix, parse the byte-reversed target, then run the search loop. -/
def minerWork (datastr targetstr : List Char) (maxNonce : Nat) :
    Option (Nat × Option (List Nat)) := do
  let sd ← hexDecode datastr
  let sd2 ← bufreverse sd
  let blkHdr := sd2.take 76
  let tb ← hexDecode targetstr
  let target := beVal tb.reverse
  searchLoop sha256 blkHdr target maxNonce

/-- The splice in `Miner.submit_work`:
`original_data[:152] + nonce + original_data[160:256]`. -/
def spliceSolution (originalData : List Char) (nonceHex : List Char) : List Char :=
  originalData.take 152 ++ nonceHex ++ (originalData.drop 160).take 96

/-- Model of `Miner.submit_work` up to the RPC call: `bufreverse` the 4 nonce bytes,
hex-encode them, and splice them into the original header text. -/
def submitWork (originalData : List Char) (nonceBin : List Nat) : Option (List Char) :=
  (bufreverse nonceBin).map (fun nb => spliceSolution originalData (bytesToHex nb))

/-! ### Recalibration (`Miner.iterate`, lines 163-172) -/

/-- Python `int()` on an exact rational: truncation toward zero. -/
def pyInt (q : ℚ) : Int :=
  if q < 0 then -((-q).num / ((-q).den : Int)) else q.num / (q.den : Int)

/-- The raw recalibrated bound before the ceiling clamp:
`int((hashes_done * scantime) / time_diff)`. -/
def recalibRaw (hashesDone scantime : Nat) (timeDiff : ℚ) : Int :=
  pyInt (((hashesDone * scantime : Nat) : ℚ) / timeDiff)

/-- The recalibration step of `Miner.iterate`: divide by the elapsed duration
(a zero duration raises `ZeroDivisionError`, modelled as `none`), then clamp
to `0xfffffffa`. -/
def recalib (hashesDone scantime : Nat) (timeDiff : ℚ) : Option Int :=
  if timeDiff = 0 then none
  else
    let r := recalibRaw hashesDone scantime timeDiff
    some (if r > 0xfffffffa then 0xfffffffa else r)

/-! ### `BitcoinRPC.rpc` and `Miner.iterate`

The network transport is external; the model takes the outcome of the HTTP
round trip (no response / undecodable body / decoded JSON value) and follows
the source's handling of it.  JSON-RPC response bodies are objects or `null`;
other top-level JSON shapes are outside the model. -/

/-- A decoded JSON value as Python sees it (the shapes the miner touches). -/
inductive PyVal where
  | null
  | str (s : List Char)
  | num (n : Int)
  | obj (fields : List (String × PyVal))

/-- The outcome of the HTTP round trip inside `BitcoinRPC.rpc`. -/
inductive HttpOutcome where
  | noResponse
  | badBody
  | nullBody
  | objBody (fields : List (String × PyVal))

/-- Python dict lookup on decoded JSON object fields. -/
def lookupField (fs : List (String × PyVal)) (k : String) : Option PyVal :=
  match fs with
  | [] => none
  | (k', v) :: rest => if k' = k then some v else lookupField rest k

/-- Whether a `PyVal` is Python `None`. -/
def isNull : PyVal → Bool
  | .null => true
  | _ => false

/-- The `'result'` tail of `BitcoinRPC.rpc`: missing key prints and returns
`None`, otherwise the result value is returned. -/
def resultOf (fs : List (String × PyVal)) : Except Unit (Option PyVal) :=
  match lookupField fs ("result") with
  | none => .ok none
  | some r => .ok (some r)

/-- Model of `BitcoinRPC.rpc` after the POST: a missing response returns `None`; an
undecodable body makes `json.loads` raise (the `resp_obj is None` guard below
it is unreachable for such bodies), modelled as `.error`; a non-`None`
`'error'` field value is returned as the call's value; otherwise the
`'result'` field is consulted. -/
def rpcModel : HttpOutcome → Except Unit (Option PyVal)
  | .noResponse => .ok none
  | .badBody => .error ()
  | .nullBody => .ok none
  | .objBody fs =>
      match lookupField fs ("error") with
      | some e => if isNull e then resultOf fs else .ok (some e)
      | none => resultOf fs

/-- Whether `pat` occurs at the head of `text`. -/
def startsWithL : List Char → List Char → Bool
  | [], _ => true
  | _ :: _, [] => false
  | p :: ps, t :: ts => p = t && startsWithL ps ts

/-- Whether `pat` occurs anywhere inside `text` (Python `in` on strings). -/
def containsSub (pat : List Char) : List Char → Bool
  | [] => pat.isEmpty
  | t :: ts => startsWithL pat (t :: ts) || containsSub pat ts

/-- Python `k in w`: key membership for dicts, substring for strings, and a
`TypeError` for values that support neither. -/
def keyCheck (w : PyVal) (k : String) : Except Unit Bool :=
  match w with
  | .obj fs => .ok (lookupField fs k).isSome
  | .str s => .ok (containsSub k.toList s)
  | _ => .error ()

/-- Python `w[k]` with a string key: dict item access (`KeyError` when
missing); a `TypeError` on anything else. -/
def getItem (w : PyVal) (k : String) : Except Unit PyVal :=
  match w with
  | .obj fs =>
      match lookupField fs k with
      | some v => .ok v
      | none => .error ()
  | _ => .error ()

/-- Python `bytes.fromhex` demands a string argument (`TypeError` otherwise). -/
def asStr : PyVal → Except Unit (List Char)
  | .str s => .ok s
  | _ => .error ()

/-- Option failure as a raised exception. -/
def optionToExcept {α : Type} : Option α → Except Unit α
  | some a => .ok a
  | none => .error ()

/-- The observable outcome of one `Miner.iterate` call. -/
structure CycleEffect where
  newBound : Int
  slept : Bool
  searched : Bool
  submitted : Option (List Char)
deriving DecidableEq

/-- Model of `Miner.iterate` for one cycle: fetch handling, the field checks with
Python's short-circuit order, then search, recalibration from the measured
duration, and the optional submission.  `.error` is an exception escaping
`iterate` (which kills the worker loop). -/
def iterateModel (fetch : HttpOutcome) (bound : Int) (scantime : Nat) (timeDiff : ℚ) :
    Except Unit CycleEffect :=
  match rpcModel fetch with
  | .error e => .error e
  | .ok none => .ok ⟨bound, true, false, none⟩
  | .ok (some w) => do
      let hasData ← keyCheck w ("data")
      if !hasData then .ok ⟨bound, true, false, none⟩
      else do
        let hasTarget ← keyCheck w ("target")
        if !hasTarget then .ok ⟨bound, true, false, none⟩
        else do
          let dstr ← asStr (← getItem w ("data"))
          let tstr ← asStr (← getItem w ("target"))
          let res ← optionToExcept (minerWork dstr tstr bound.toNat)
          let nb ← optionToExcept (recalib res.1 scantime timeDiff)
          match res.2 with
          | none => .ok ⟨nb, false, true, none⟩
          | some nonceBin => do
              let sol ← optionToExcept (submitWork dstr nonceBin)
              .ok ⟨nb, false, true, some sol⟩

/-- A concrete all-zero 76-byte header prefix used in concrete evaluations. -/
def zeroHeader76 : List Nat := List.replicate 76 0

/-- Known test vector: SHA-256 of the empty string. -/
theorem sha256_nil :
    sha256 [] =
      [0xe3, 0xb0, 0xc4, 0x42, 0x98, 0xfc, 0x1c, 0x14, 0x9a, 0xfb, 0xf4, 0xc8, 0x99, 0x6f,
       0xb9, 0x24, 0x27, 0xae, 0x41, 0xe4, 0x64, 0x9b, 0x93, 0x4c, 0xa4, 0x95, 0x99, 0x1b,
       0x78, 0x52, 0xb8, 0x55] := by decide

/-- Known test vector: SHA-256 of `"abc"`. -/
theorem sha256_abc :
    sha256 [0x61, 0x62, 0x63] =
      [0xba, 0x78, 0x16, 0xbf, 0x8f, 0x01, 0xcf, 0xea, 0x41, 0x41, 0x40, 0xde, 0x5d, 0xae,
       0x22, 0x23, 0xb0, 0x03, 0x61, 0xa3, 0x96, 0x17, 0x7a, 0x9c, 0xb4, 0x10, 0xff, 0x61,
       0xf2, 0x00, 0x15, 0xad] := by decide

/-! ### Arithmetic characterization of the byte-order transforms -/

/-- Masking with a shifted all-ones block extracts a digit group. -/
theorem and_shifted_mask (y n k : Nat) :
    y &&& ((2 ^ n - 1) <<< k) = y / 2 ^ k % 2 ^ n * 2 ^ k := by
  have h : y &&& ((2 ^ n - 1) <<< k) = ((y >>> k) % 2 ^ n) <<< k := by
    apply Nat.eq_of_testBit_eq
    intro i
    simp only [Nat.testBit_and, Nat.testBit_shiftLeft, Nat.testBit_two_pow_sub_one,
      Nat.testBit_mod_two_pow, Nat.testBit_shiftRight, ge_iff_le]
    by_cases hk : k ≤ i
    · have hki : k + (i - k) = i := by omega
      simp only [hk, decide_True, Bool.true_and, hki]
      cases y.testBit i <;> simp
    · simp [hk]
  rw [h, Nat.shiftLeft_eq, Nat.shiftRight_eq_div_pow]

/-- Truncation mod a power of two distributes over bitwise or. -/
theorem mod_two_pow_or (a b n : Nat) :
    (a ||| b) % 2 ^ n = a % 2 ^ n ||| b % 2 ^ n := by
  apply Nat.eq_of_testBit_eq
  intro i
  simp [Nat.testBit_mod_two_pow, Nat.testBit_or, Bool.and_or_distrib_left]

/-- Lemma: `unpackLE4` is the little-endian byte value. -/
theorem unpackLE4_eq (a b c d : Nat) (ha : a < 256) (hb : b < 256) (hc : c < 256) :
    unpackLE4 a b c d = a + b * 256 + c * 65536 + d * 16777216 := by
  unfold unpackLE4
  rw [Nat.shiftLeft_eq, Nat.shiftLeft_eq, Nat.shiftLeft_eq]
  have s1 : a ||| b * 2 ^ 8 = b * 256 + a := by
    rw [Nat.or_comm, show b * 2 ^ 8 = 2 ^ 8 * b by ring,
      ← Nat.mul_add_lt_is_or (by omega : a < 2 ^ 8)]
    ring
  rw [s1]
  have s2 : b * 256 + a ||| c * 2 ^ 16 = c * 65536 + (b * 256 + a) := by
    rw [Nat.or_comm, show c * 2 ^ 16 = 2 ^ 16 * c by ring,
      ← Nat.mul_add_lt_is_or (by omega : b * 256 + a < 2 ^ 16)]
    ring
  rw [s2]
  have s3 : c * 65536 + (b * 256 + a) ||| d * 2 ^ 24 =
      d * 16777216 + (c * 65536 + (b * 256 + a)) := by
    rw [Nat.or_comm, show d * 2 ^ 24 = 2 ^ 24 * d by ring,
      ← Nat.mul_add_lt_is_or (by omega : c * 65536 + (b * 256 + a) < 2 ^ 24)]
    ring
  rw [s3]
  ring

/-- Lemma: `packLE4` lists the little-endian digits of its argument. -/
theorem packLE4_eq (w : Nat) :
    packLE4 w = [w % 256, w / 256 % 256, w / 65536 % 256, w / 16777216 % 256] := by
  unfold packLE4
  have h0 : (0xff : Nat) = 2 ^ 8 - 1 := by norm_num
  rw [h0, Nat.shiftRight_eq_div_pow, Nat.shiftRight_eq_div_pow, Nat.shiftRight_eq_div_pow,
    Nat.and_pow_two_sub_one_eq_mod, Nat.and_pow_two_sub_one_eq_mod,
    Nat.and_pow_two_sub_one_eq_mod, Nat.and_pow_two_sub_one_eq_mod]

/-- Lemma: `bytereverse` swaps the four bytes of a 32-bit value. -/
theorem bytereverse_eq (x : Nat) (hx : x < 4294967296) :
    bytereverse x =
      x % 256 * 16777216 + x / 256 % 256 * 65536 + x / 65536 % 256 * 256 + x / 16777216 := by
  unfold bytereverse uint32
  have m1 : (0x00ff0000 : Nat) = (2 ^ 8 - 1) <<< 16 := by
    rw [Nat.shiftLeft_eq]; norm_num
  have m2 : (0x0000ff00 : Nat) = (2 ^ 8 - 1) <<< 8 := by
    rw [Nat.shiftLeft_eq]; norm_num
  have m3 : (0xffffffff : Nat) = 2 ^ 32 - 1 := by norm_num
  rw [m1, m2, m3, and_shifted_mask, and_shifted_mask, Nat.and_pow_two_sub_one_eq_mod,
    Nat.shiftLeft_eq, Nat.shiftLeft_eq, Nat.shiftRight_eq_div_pow, Nat.shiftRight_eq_div_pow,
    mod_two_pow_or, mod_two_pow_or, mod_two_pow_or]
  have e1 : x * 2 ^ 24 % 2 ^ 32 = x % 256 * 16777216 := by omega
  have e2 : x * 2 ^ 8 / 2 ^ 16 % 2 ^ 8 * 2 ^ 16 % 2 ^ 32 = x / 256 % 256 * 65536 := by omega
  have e3 : x / 2 ^ 8 / 2 ^ 8 % 2 ^ 8 * 2 ^ 8 % 2 ^ 32 = x / 65536 % 256 * 256 := by omega
  have e4 : x / 2 ^ 24 % 2 ^ 32 = x / 16777216 := by omega
  rw [e1, e2, e3, e4]
  have s1 : x % 256 * 16777216 ||| x / 256 % 256 * 65536 =
      x % 256 * 16777216 + x / 256 % 256 * 65536 := by
    rw [show x % 256 * 16777216 = 2 ^ 24 * (x % 256) by ring,
      ← Nat.mul_add_lt_is_or (by omega : x / 256 % 256 * 65536 < 2 ^ 24)]
  rw [s1]
  have s2 : x % 256 * 16777216 + x / 256 % 256 * 65536 ||| x / 65536 % 256 * 256 =
      x % 256 * 16777216 + x / 256 % 256 * 65536 + x / 65536 % 256 * 256 := by
    rw [show x % 256 * 16777216 + x / 256 % 256 * 65536 =
          2 ^ 16 * (x % 256 * 256 + x / 256 % 256) by ring,
      ← Nat.mul_add_lt_is_or (by omega : x / 65536 % 256 * 256 < 2 ^ 16)]
  rw [s2]
  have s3 : x % 256 * 16777216 + x / 256 % 256 * 65536 + x / 65536 % 256 * 256 |||
        x / 16777216 =
      x % 256 * 16777216 + x / 256 % 256 * 65536 + x / 65536 % 256 * 256 + x / 16777216 := by
    rw [show x % 256 * 16777216 + x / 256 % 256 * 65536 + x / 65536 % 256 * 256 =
          2 ^ 8 * (x % 256 * 65536 + x / 256 % 256 * 256 + x / 65536 % 256) by ring,
      ← Nat.mul_add_lt_is_or (by omega : x / 16777216 < 2 ^ 8)]
  rw [s3]

/-- One 4-byte word of `bufreverse` comes out byte-reversed. -/
theorem pack_bytereverse_unpack (a b c d : Nat)
    (ha : a < 256) (hb : b < 256) (hc : c < 256) (hd : d < 256) :
    packLE4 (bytereverse (unpackLE4 a b c d)) = [d, c, b, a] := by
  have hx := unpackLE4_eq a b c d ha hb hc
  have hlt : unpackLE4 a b c d < 4294967296 := by omega
  rw [bytereverse_eq _ hlt, packLE4_eq, hx]
  have h0 : (a + b * 256 + c * 65536 + d * 16777216) % 256 = a := by omega
  have h1 : (a + b * 256 + c * 65536 + d * 16777216) / 256 % 256 = b := by omega
  have h2 : (a + b * 256 + c * 65536 + d * 16777216) / 65536 % 256 = c := by omega
  have h3 : (a + b * 256 + c * 65536 + d * 16777216) / 16777216 = d := by omega
  rw [h0, h1, h2, h3]
  clear hx hlt h0 h1 h2 h3
  simp only [List.cons.injEq, and_true]
  refine ⟨by omega, by omega, by omega, by omega⟩

/-- Unfolding equation of `bufreverse` on a full word. -/
theorem bufreverse_cons4 (a b c d : Nat) (t : List Nat) :
    bufreverse (a :: b :: c :: d :: t) =
      (bufreverse t).map (fun r => packLE4 (bytereverse (unpackLE4 a b c d)) ++ r) := rfl

/-- Lemma: `bufreverse` raises on any length that is not a multiple of 4. -/
theorem bufreverse_eq_none :
    ∀ (fuel : Nat) (l : List Nat), l.length ≤ fuel → l.length % 4 ≠ 0 →
      bufreverse l = none := by
  intro fuel
  induction fuel with
  | zero =>
      intro l hl h4
      obtain _ | ⟨x, t⟩ := l
      · simp at h4
      · simp at hl
  | succ n ih =>
      intro l hl h4
      obtain _ | ⟨x, _ | ⟨y, _ | ⟨z, _ | ⟨w, t⟩⟩⟩⟩ := l
      · simp at h4
      · rfl
      · rfl
      · rfl
      · have h4t : t.length % 4 ≠ 0 := by simp at h4 ⊢; omega
        have hlt : t.length ≤ n := by simp at hl; omega
        rw [bufreverse_cons4, ih t hlt h4t]
        rfl

/-- Lemma: `bufreverse` succeeds on every length that is a multiple of 4. -/
theorem bufreverse_eq_some :
    ∀ (fuel : Nat) (l : List Nat), l.length ≤ fuel → l.length % 4 = 0 →
      ∃ l', bufreverse l = some l' := by
  intro fuel
  induction fuel with
  | zero =>
      intro l hl _
      obtain _ | ⟨x, t⟩ := l
      · exact ⟨[], rfl⟩
      · simp at hl
  | succ n ih =>
      intro l hl h4
      obtain _ | ⟨x, _ | ⟨y, _ | ⟨z, _ | ⟨w, t⟩⟩⟩⟩ := l
      · exact ⟨[], rfl⟩
      · simp at h4
      · simp at h4
      · simp at h4
      · have h4t : t.length % 4 = 0 := by simp at h4 ⊢; omega
        have hlt : t.length ≤ n := by simp at hl; omega
        obtain ⟨t', ht'⟩ := ih t hlt h4t
        exact ⟨_, by rw [bufreverse_cons4, ht']; rfl⟩

/-- Applying `bufreverse` twice gives back the original word-aligned buffer. -/
theorem bufreverse_bind_bufreverse :
    ∀ (fuel : Nat) (l : List Nat), l.length ≤ fuel → (∀ b ∈ l, b < 256) →
      l.length % 4 = 0 → (bufreverse l).bind bufreverse = some l := by
  intro fuel
  induction fuel with
  | zero =>
      intro l hl _ _
      obtain _ | ⟨x, t⟩ := l
      · rfl
      · simp at hl
  | succ n ih =>
      intro l hl hb h4
      obtain _ | ⟨x, _ | ⟨y, _ | ⟨z, _ | ⟨w, t⟩⟩⟩⟩ := l
      · rfl
      · simp at h4
      · simp at h4
      · simp at h4
      · have hx : x < 256 := hb x (by simp)
        have hy : y < 256 := hb y (by simp)
        have hz : z < 256 := hb z (by simp)
        have hw : w < 256 := hb w (by simp)
        have hbt : ∀ b ∈ t, b < 256 := fun b hm => hb b (by simp [hm])
        have h4t : t.length % 4 = 0 := by simp at h4 ⊢; omega
        have hlt : t.length ≤ n := by simp at hl; omega
        have ih' := ih t hlt hbt h4t
        cases hbt2 : bufreverse t with
        | none => rw [hbt2] at ih'; simp at ih'
        | some t' =>
            rw [hbt2] at ih'
            replace ih' : bufreverse t' = some t := ih'
            rw [bufreverse_cons4, pack_bytereverse_unpack x y z w hx hy hz hw, hbt2]
            show bufreverse ([w, z, y, x] ++ t') = some (x :: y :: z :: w :: t)
            rw [show ([w, z, y, x] ++ t' : List Nat) = w :: z :: y :: x :: t' from rfl,
              bufreverse_cons4, pack_bytereverse_unpack w z y x hw hz hy hx, ih']
            rfl

/-- Unfolding equation of `chunks4` on a full word. -/
theorem chunks4_cons4 {α : Type} (a b c d : α) (t : List α) :
    chunks4 (a :: b :: c :: d :: t) = [a, b, c, d] :: chunks4 t := rfl

/-- Unfolding equation of `wordreverse` on a full word. -/
theorem wordreverse_cons4 (a b c d : Nat) (t : List Nat) :
    wordreverse (a :: b :: c :: d :: t) = wordreverse t ++ [a, b, c, d] := by
  unfold wordreverse
  rw [chunks4_cons4]
  simp

/-- The 4-chunks of a word-aligned buffer all have length 4. -/
theorem chunks4_length_four :
    ∀ (fuel : Nat) (l : List Nat), l.length ≤ fuel → l.length % 4 = 0 →
      ∀ c ∈ chunks4 l, c.length = 4 := by
  intro fuel
  induction fuel with
  | zero =>
      intro l hl h4
      obtain _ | ⟨x, t⟩ := l
      · intro c hc
        simp [chunks4] at hc
      · simp at hl
  | succ n ih =>
      intro l hl h4
      obtain _ | ⟨x, _ | ⟨y, _ | ⟨z, _ | ⟨w, t⟩⟩⟩⟩ := l
      · intro c hc
        simp [chunks4] at hc
      · simp at h4
      · simp at h4
      · simp at h4
      · intro c hc
        have h4t : t.length % 4 = 0 := by simp at h4 ⊢; omega
        have hlt : t.length ≤ n := by simp at hl; omega
        rw [chunks4_cons4, List.mem_cons] at hc
        rcases hc with hc | hc
        · simp [hc]
        · exact ih t hlt h4t c hc

/-- Flattening the 4-chunks restores the buffer. -/
theorem flatten_chunks4 :
    ∀ (fuel : Nat) (l : List Nat), l.length ≤ fuel → (chunks4 l).flatten = l := by
  intro fuel
  induction fuel with
  | zero =>
      intro l hl
      obtain _ | ⟨x, t⟩ := l
      · rfl
      · simp at hl
  | succ n ih =>
      intro l hl
      obtain _ | ⟨x, _ | ⟨y, _ | ⟨z, _ | ⟨w, t⟩⟩⟩⟩ := l
      · rfl
      · rfl
      · rfl
      · rfl
      · have hlt : t.length ≤ n := by simp at hl; omega
        rw [chunks4_cons4]
        simp [ih t hlt]

/-- Chunking a flattening of 4-element chunks gives them back. -/
theorem chunks4_flatten (L : List (List Nat)) (hL : ∀ c ∈ L, c.length = 4) :
    chunks4 L.flatten = L := by
  induction L with
  | nil => rfl
  | cons c rest ih =>
      have hc4 : c.length = 4 := hL c (by simp)
      have ih' : chunks4 rest.flatten = rest := ih (fun x hm => hL x (by simp [hm]))
      obtain _ | ⟨a, _ | ⟨b, _ | ⟨c', _ | ⟨d, _ | ⟨e, t⟩⟩⟩⟩⟩ := c
      · exact absurd hc4 (by simp)
      · exact absurd hc4 (by simp)
      · exact absurd hc4 (by simp)
      · exact absurd hc4 (by simp)
      · show chunks4 ([a, b, c', d] ++ rest.flatten) = [a, b, c', d] :: rest
        rw [show ([a, b, c', d] ++ rest.flatten : List Nat) =
              a :: b :: c' :: d :: rest.flatten from rfl, chunks4_cons4, ih']
      · exact absurd hc4 (by simp only [List.length_cons]; omega)

/-- Lemma: `wordreverse` on any buffer: the trailing partial word (if any) ends up
in front of the reversed full words. -/
theorem wordreverse_split :
    ∀ (fuel : Nat) (l : List Nat), l.length ≤ fuel →
      wordreverse l =
        l.drop (4 * (l.length / 4)) ++ wordreverse (l.take (4 * (l.length / 4))) := by
  intro fuel
  induction fuel with
  | zero =>
      intro l hl
      obtain _ | ⟨x, t⟩ := l
      · rfl
      · simp at hl
  | succ n ih =>
      intro l hl
      obtain _ | ⟨x, _ | ⟨y, _ | ⟨z, _ | ⟨w, t⟩⟩⟩⟩ := l
      · rfl
      · simp [wordreverse, chunks4]
      · simp [wordreverse, chunks4]
      · simp [wordreverse, chunks4]
      · have hlt : t.length ≤ n := by simp at hl; omega
        have ih' := ih t hlt
        have hdiv : 4 * ((x :: y :: z :: w :: t).length / 4) = 4 * (t.length / 4) + 4 := by
          simp only [List.length_cons]
          omega
        rw [wordreverse_cons4, hdiv]
        show wordreverse t ++ [x, y, z, w] =
          t.drop (4 * (t.length / 4)) ++
            wordreverse (x :: y :: z :: w :: t.take (4 * (t.length / 4)))
        rw [wordreverse_cons4, ih', List.append_assoc]

/-- The byte-order transform chain as a single lemma over fuel. -/
theorem bufreverse_map_wordreverse :
    ∀ (fuel : Nat) (l : List Nat), l.length ≤ fuel → (∀ b ∈ l, b < 256) →
      l.length % 4 = 0 → (bufreverse l).map wordreverse = some l.reverse := by
  intro fuel
  induction fuel with
  | zero =>
      intro l hl _ _
      obtain _ | ⟨x, t⟩ := l
      · rfl
      · simp at hl
  | succ n ih =>
      intro l hl hb h4
      obtain _ | ⟨x, _ | ⟨y, _ | ⟨z, _ | ⟨w, t⟩⟩⟩⟩ := l
      · rfl
      · simp at h4
      · simp at h4
      · simp at h4
      · have hx : x < 256 := hb x (by simp)
        have hy : y < 256 := hb y (by simp)
        have hz : z < 256 := hb z (by simp)
        have hw : w < 256 := hb w (by simp)
        have hbt : ∀ b ∈ t, b < 256 := fun b hm => hb b (by simp [hm])
        have h4t : t.length % 4 = 0 := by simp at h4 ⊢; omega
        have hlt : t.length ≤ n := by simp at hl; omega
        have ih' := ih t hlt hbt h4t
        cases hbt2 : bufreverse t with
        | none => rw [hbt2] at ih'; simp at ih'
        | some t' =>
            rw [hbt2] at ih'
            replace ih' : wordreverse t' = t.reverse := by simpa using ih'
            rw [bufreverse_cons4, pack_bytereverse_unpack x y z w hx hy hz hw, hbt2]
            show some (wordreverse ([w, z, y, x] ++ t')) = some ((x :: y :: z :: w :: t).reverse)
            rw [show ([w, z, y, x] ++ t' : List Nat) = w :: z :: y :: x :: t' from rfl,
              wordreverse_cons4, ih']
            simp

/-! ### Claims C3, C8, C10: the byte-order transforms -/

/-- C3: on every buffer of byte values whose length is a multiple of 4,
`bufreverse` applied twice and `wordreverse` applied twice both give back the
original buffer — each transform is an involution. -/
theorem claim3_involutions (l : List Nat) (hb : ∀ b ∈ l, b < 256)
    (h4 : l.length % 4 = 0) :
    (bufreverse l).bind bufreverse = some l ∧ wordreverse (wordreverse l) = l := by
  refine ⟨bufreverse_bind_bufreverse l.length l le_rfl hb h4, ?_⟩
  unfold wordreverse
  have hall : ∀ c ∈ (chunks4 l).reverse, c.length = 4 := fun c hc =>
    chunks4_length_four l.length l le_rfl h4 c (List.mem_reverse.mp hc)
  rw [chunks4_flatten _ hall, List.reverse_reverse]
  exact flatten_chunks4 l.length l le_rfl

/-- Witness for C3 at the concrete buffer `[1, 2, 3, 4]`. -/
theorem claim3_witness :
    (bufreverse [1, 2, 3, 4]).bind bufreverse = some [1, 2, 3, 4] ∧
      wordreverse (wordreverse [1, 2, 3, 4]) = [1, 2, 3, 4] :=
  claim3_involutions [1, 2, 3, 4] (by decide) (by decide)

/-- C8 counterexample: on the 5-byte buffer `[1, 2, 3, 4, 5]`, `bufreverse`
raises (`struct.unpack` gets a 1-byte slice) instead of dropping the
remainder, and `wordreverse` keeps the remainder byte `5`, moving it to the
front, instead of dropping it. -/
theorem claim8_counterexample :
    bufreverse [1, 2, 3, 4, 5] = none ∧
      wordreverse [1, 2, 3, 4, 5] = [5, 1, 2, 3, 4] := ⟨rfl, rfl⟩

/-- C8 as amended: on a buffer whose length is not a multiple of 4,
`bufreverse` raises an error, and `wordreverse` returns the trailing
remainder bytes followed by the word-reversal of the complete words. -/
theorem claim8_amended (l : List Nat) (h4 : l.length % 4 ≠ 0) :
    bufreverse l = none ∧
      wordreverse l =
        l.drop (4 * (l.length / 4)) ++ wordreverse (l.take (4 * (l.length / 4))) :=
  ⟨bufreverse_eq_none l.length l le_rfl h4, wordreverse_split l.length l le_rfl⟩

/-- Witness for the amended C8 at the concrete buffer `[1, 2, 3, 4, 5]`. -/
theorem claim8_witness :
    bufreverse [1, 2, 3, 4, 5] = none ∧
      wordreverse [1, 2, 3, 4, 5] =
        ([1, 2, 3, 4, 5] : List Nat).drop (4 * (([1, 2, 3, 4, 5] : List Nat).length / 4)) ++
          wordreverse (([1, 2, 3, 4, 5] : List Nat).take
            (4 * (([1, 2, 3, 4, 5] : List Nat).length / 4))) :=
  claim8_amended [1, 2, 3, 4, 5] (by decide)

/-- C10: on every buffer of byte values whose length is a multiple of 4
(in particular every 32-byte digest), `bufreverse` followed by `wordreverse`
equals reversing the whole byte sequence — the same `[::-1]` transform
`Miner.work` applies to the wire-order target. -/
theorem claim10_full_reversal (l : List Nat) (hb : ∀ b ∈ l, b < 256)
    (h4 : l.length % 4 = 0) :
    (bufreverse l).map wordreverse = some l.reverse :=
  bufreverse_map_wordreverse l.length l le_rfl hb h4

/-- Witness for C10 at the concrete buffer `[1, 2, 3, 4, 5, 6, 7, 8]`. -/
theorem claim10_witness :
    (bufreverse [1, 2, 3, 4, 5, 6, 7, 8]).map wordreverse =
      some ([1, 2, 3, 4, 5, 6, 7, 8] : List Nat).reverse :=
  claim10_full_reversal [1, 2, 3, 4, 5, 6, 7, 8] (by decide) (by decide)


/-! ### Digest length and the search loop -/

/-- One SHA-256 round preserves the state length. -/
theorem shaRound_length (s : List Nat) (kw : Nat × Nat) :
    (shaRound s kw).length = s.length := by
  unfold shaRound
  split
  · rfl
  · rfl

/-- Folding rounds preserves the state length. -/
theorem foldRounds_length (l : List (Nat × Nat)) (s : List Nat) :
    (l.foldl shaRound s).length = s.length := by
  induction l generalizing s with
  | nil => rfl
  | cons p t ih => rw [List.foldl_cons, ih, shaRound_length]

/-- Compression preserves the running-state length. -/
theorem compress_length (h : List Nat) (b : List Nat) :
    (compress h b).length = h.length := by
  unfold compress
  simp [foldRounds_length]

/-- Folding compressions preserves the running-state length. -/
theorem foldCompress_length (bs : List (List Nat)) (s : List Nat) :
    (bs.foldl compress s).length = s.length := by
  induction bs generalizing s with
  | nil => rfl
  | cons b t ih => rw [List.foldl_cons, ih, compress_length]

/-- Serializing a word list gives four bytes per word. -/
theorem map_wordBytes_flatten_length (L : List Nat) :
    ((L.map wordBytesBE).flatten).length = 4 * L.length := by
  induction L with
  | nil => rfl
  | cons a t ih =>
      simp only [List.map_cons, List.flatten_cons, List.length_append, List.length_cons, ih]
      simp [wordBytesBE]
      omega

/-- Every SHA-256 digest has 32 bytes. -/
theorem sha256_length (msg : List Nat) : (sha256 msg).length = 32 := by
  unfold sha256
  rw [map_wordBytes_flatten_length, foldCompress_length]
  rfl

/-- With target zero, the loop body never succeeds and the bound is
exhausted, returning `(bound, none)`. -/
theorem searchAux_exhaust (H : List Nat → List Nat) (pref : List Nat)
    (hlen : ∀ m, (digest2 H pref m).length % 4 = 0) :
    ∀ (fuel start : Nat), searchAux H pref 0 start fuel = some (start + fuel, none) := by
  intro fuel
  induction fuel with
  | zero => intro start; rfl
  | succ k ih =>
      intro start
      rw [searchAux]
      have harith : start + 1 + k = start + (k + 1) := by omega
      by_cases hf : lastFour (digest2 H pref start) ≠ [0, 0, 0, 0]
      · rw [if_pos hf, ih, harith]
      · rw [if_neg hf]
        obtain ⟨d', hd'⟩ := bufreverse_eq_some (digest2 H pref start).length _ le_rfl (hlen start)
        split
        · rename_i hnone
          rw [hd'] at hnone
          exact absurd hnone (by simp)
        · rename_i hv hsome
          rw [if_neg (Nat.not_lt_zero _), ih, harith]


/-- The search loop returns the first nonce that both passes the fast-reject
pre-filter and compares below the target. -/
theorem searchAux_finds (H : List Nat → List Nat) (pref : List Nat) (target n : Nat)
    (hlen : ∀ m, (digest2 H pref m).length % 4 = 0)
    (hfilt : lastFour (digest2 H pref n) = [0, 0, 0, 0])
    (v : Nat) (hv : transformedVal H pref n = some v) (hqual : v < target)
    (hmin : ∀ m, m < n → lastFour (digest2 H pref m) = [0, 0, 0, 0] →
      ∀ u, transformedVal H pref m = some u → target ≤ u) :
    ∀ (fuel start : Nat), start ≤ n → n < start + fuel →
      searchAux H pref target start fuel = some (n + 1, some (leBytes4 n)) := by
  intro fuel
  induction fuel with
  | zero => intro start h1 h2; omega
  | succ k ih =>
      intro start h1 h2
      rw [searchAux]
      rcases Nat.eq_or_lt_of_le h1 with heq | hlt
      · subst heq
        rw [if_neg (fun h => h hfilt)]
        unfold transformedVal at hv
        split
        · rename_i hnone
          rw [hnone] at hv
          exact absurd hv (by simp)
        · rename_i d' hsome
          rw [hsome] at hv
          replace hv : beVal (wordreverse d') = v := by simpa using hv
          rw [hv, if_pos hqual]
      · by_cases hf : lastFour (digest2 H pref start) = [0, 0, 0, 0]
        · rw [if_neg (fun h => h hf)]
          split
          · rename_i hnone
            obtain ⟨d', hd'⟩ :=
              bufreverse_eq_some (digest2 H pref start).length _ le_rfl (hlen start)
            rw [hd'] at hnone
            exact absurd hnone (by simp)
          · rename_i d' hsome
            have hmge := hmin start hlt hf (beVal (wordreverse d'))
              (by unfold transformedVal; rw [hsome]; rfl)
            rw [if_neg (by omega)]
            exact ih (start + 1) (by omega) (by omega)
        · rw [if_pos hf]
          exact ih (start + 1) (by omega) (by omega)

/-! ### Claims C1, C2, C4: the search loop -/

/-- C1 as amended: for every 32-byte-digest hash function (double-SHA-256
among them), every prefix and every target, if `n` is below the bound, its
raw double digest ends in four zero bytes (so the fast-reject pre-filter
passes), its transformed value is below the target, and no smaller nonce
both passes the pre-filter and compares below the target, then the search
returns exactly `n` with `attempts = n + 1`.  (As the counterexample shows,
the pre-filter is not sound for targets above `2 ^ 224`: a qualifying nonce
whose raw digest does not end in four zero bytes is skipped.) -/
theorem claim1_first_qualifying (H : List Nat → List Nat) (pref : List Nat)
    (target bound n : Nat) (hH : ∀ x, (H x).length = 32) (hn : n < bound)
    (hfilt : lastFour (digest2 H pref n) = [0, 0, 0, 0])
    (v : Nat) (hv : transformedVal H pref n = some v) (hqual : v < target)
    (hmin : ∀ m, m < n → lastFour (digest2 H pref m) = [0, 0, 0, 0] →
      ∀ u, transformedVal H pref m = some u → target ≤ u) :
    searchLoop H pref target bound = some (n + 1, some (leBytes4 n)) := by
  unfold searchLoop
  rw [if_neg (by omega : ¬ bound = 0)]
  exact searchAux_finds H pref target n
    (fun m => by unfold digest2; rw [hH]) hfilt v hv hqual hmin bound 0 (by omega) (by omega)

/-- Witness for the amended C1: a constant all-zero digest function, target 1
and bound 1 make nonce 0 the first qualifying nonce. -/
theorem claim1_witness :
    searchLoop (fun _ => List.replicate 32 0) [] 1 1 = some (1, some [0, 0, 0, 0]) :=
  claim1_first_qualifying (fun _ => List.replicate 32 0) [] 1 1 0
    (fun x => by simp) (by decide) (by decide) 0 (by decide) (by decide)
    (fun m hm => absurd hm (Nat.not_lt_zero m))

set_option maxRecDepth 100000 in
/-- C1 counterexample: on the all-zero 76-byte prefix, nonce 0 qualifies for
the target one above its own transformed digest value, yet `searchLoop` with
bound 1 returns exhaustion `(1, none)` instead of `(1, nonce 0)`: the raw
digest does not end in four zero bytes, so the fast-reject pre-filter skips
the qualifying full comparison. -/
theorem claim1_counterexample :
    transformedVal sha256 zeroHeader76 0 =
      some 9188518185559798194522836924258600097131917899116462896457545710416921356107 ∧
    searchLoop sha256 zeroHeader76
        9188518185559798194522836924258600097131917899116462896457545710416921356108 1 =
      some (1, none) :=
  ⟨by decide, by decide⟩

/-- C2: with `nonce_bound = 0` the loop body never runs, and `Miner.work`
raises `UnboundLocalError` at `return nonce + 1` (the loop variable was never
assigned) instead of returning `attempts = 0`; the exception is modelled as
`none`. -/
theorem claim2_bound_zero (H : List Nat → List Nat) (pref : List Nat) (target : Nat) :
    searchLoop H pref target 0 = none := rfl

/-- C4 counterexample: with target 0 and `nonce_bound = 0`, the search does
not return `(attempts = 0, no nonce)`; it raises (modelled as `none`). -/
theorem claim4_counterexample : searchLoop sha256 zeroHeader76 0 0 = none := rfl

/-- C4 as amended: for every positive bound, a target of zero (which no
digest value can be strictly below) makes the search exhaust the bound and
return `attempts = nonce_bound` with no qualifying nonce. -/
theorem claim4_target_zero (pref : List Nat) (n : Nat) (hn : 0 < n) :
    searchLoop sha256 pref 0 n = some (n, none) := by
  unfold searchLoop
  rw [if_neg (by omega : ¬ n = 0)]
  have h := searchAux_exhaust sha256 pref
    (fun m => by unfold digest2; rw [sha256_length]) n 0
  simpa using h

/-- Witness for the amended C4 at bound 1 on the all-zero prefix. -/
theorem claim4_witness : searchLoop sha256 zeroHeader76 0 1 = some (1, none) :=
  claim4_target_zero zeroHeader76 1 (by decide)


/-! ### Claims C5, C7: recalibration -/

/-- For nonnegative rationals, Python truncation is the floor. -/
theorem pyInt_of_nonneg (q : ℚ) (h : 0 ≤ q) : pyInt q = ⌊q⌋ := by
  unfold pyInt
  rw [if_neg (not_lt.mpr h), Rat.floor_def]

/-- C5: the recalibration step divides by the elapsed duration with no
guard: a zero duration raises `ZeroDivisionError` (modelled as `none`)
instead of retaining the prior bound, and a negative duration installs a
negative bound (here `-75`). -/
theorem claim5_no_guard (h s : Nat) :
    recalib h s 0 = none ∧ recalib 5 30 (-2) = some (-75) := by
  constructor
  · unfold recalib
    rw [if_pos rfl]
  · unfold recalib
    rw [if_neg (by norm_num)]
    have hqv : ((5 * 30 : Nat) : ℚ) / (-2) = -75 := by norm_num
    have e : recalibRaw 5 30 (-2) = -75 := by
      unfold recalibRaw
      rw [hqv]
      unfold pyInt
      rw [if_pos (by norm_num)]
      norm_num
    rw [e]
    norm_num

/-- C7 counterexample: with `attempts * scantime = 3` and elapsed duration 2,
the pre-clamp bound computed from elapsed `2 / 2` is `floor 3 = 3`, which is
not twice the bound `floor (3 / 2) = 1` computed from elapsed 2. -/
theorem claim7_counterexample :
    recalibRaw 3 1 (2 / 2) ≠ 2 * recalibRaw 3 1 2 := by
  have e1 : recalibRaw 3 1 (2 / 2) = 3 := by
    unfold recalibRaw
    rw [show ((2 : ℚ) / 2) = 1 by norm_num, pyInt_of_nonneg _ (by norm_num)]
    rw [show ((3 * 1 : Nat) : ℚ) / 1 = 3 by norm_num]
    exact Int.floor_intCast 3
  have e2 : recalibRaw 3 1 2 = 1 := by
    unfold recalibRaw
    rw [pyInt_of_nonneg _ (by norm_num)]
    rw [show ((3 * 1 : Nat) : ℚ) / 2 = 3 / 2 by norm_num]
    rw [Int.floor_eq_iff]
    norm_num
  rw [e1, e2]
  decide

/-- C7 as amended: holding attempts and scantime fixed, for every positive
elapsed duration `t` the pre-clamp bound computed from `t / 2` is twice the
bound computed from `t`, up to the floor: it is `2 * b` or `2 * b + 1`. -/
theorem claim7_half_elapsed (h s : Nat) (t : ℚ) (ht : 0 < t) :
    2 * recalibRaw h s t ≤ recalibRaw h s (t / 2) ∧
      recalibRaw h s (t / 2) ≤ 2 * recalibRaw h s t + 1 := by
  have hx : (0 : ℚ) ≤ ((h * s : Nat) : ℚ) := Nat.cast_nonneg _
  have ht2 : (0 : ℚ) < t / 2 := by positivity
  have e1 : recalibRaw h s t = ⌊((h * s : Nat) : ℚ) / t⌋ := by
    unfold recalibRaw
    exact pyInt_of_nonneg _ (div_nonneg hx ht.le)
  have e2 : recalibRaw h s (t / 2) = ⌊((h * s : Nat) : ℚ) / (t / 2)⌋ := by
    unfold recalibRaw
    exact pyInt_of_nonneg _ (div_nonneg hx ht2.le)
  have htne : t ≠ 0 := ne_of_gt ht
  have hdbl : ((h * s : Nat) : ℚ) / (t / 2) = 2 * (((h * s : Nat) : ℚ) / t) := by
    field_simp
    ring
  rw [e1, e2, hdbl]
  constructor
  · rw [Int.le_floor]
    have hfl := Int.floor_le (((h * s : Nat) : ℚ) / t)
    push_cast at hfl ⊢
    linarith
  · have h1 := Int.lt_floor_add_one (((h * s : Nat) : ℚ) / t)
    have h2 : ⌊(2 : ℚ) * (((h * s : Nat) : ℚ) / t)⌋ < 2 * ⌊((h * s : Nat) : ℚ) / t⌋ + 2 := by
      rw [Int.floor_lt]
      push_cast at h1 ⊢
      linarith
    omega

/-- Witness for the amended C7 at `attempts * scantime = 3`, elapsed 2. -/
theorem claim7_witness :
    2 * recalibRaw 3 1 2 ≤ recalibRaw 3 1 (2 / 2) ∧
      recalibRaw 3 1 (2 / 2) ≤ 2 * recalibRaw 3 1 2 + 1 :=
  claim7_half_elapsed 3 1 2 (by norm_num)

/-! ### Claim C6: the submission splice -/

/-- The hex text of a byte list has two characters per byte. -/
theorem bytesToHex_length (l : List Nat) : (bytesToHex l).length = 2 * l.length := by
  induction l with
  | nil => rfl
  | cons a t ih =>
      unfold bytesToHex at ih ⊢
      simp only [List.map_cons, List.flatten_cons, List.length_append, List.length_cons, ih]
      simp
      omega

set_option maxRecDepth 40000 in
/-- C6 counterexample: on a 257-character header text the splice truncates to
256 characters — `original_data[160:256]` drops everything past character
256 — so the output length differs from the input length. -/
theorem claim6_counterexample :
    (submitWork (List.replicate 257 'a') [1, 2, 3, 4]).map List.length = some 256 := by
  decide

/-- C6 as amended: for every header text of length `L` with
`160 ≤ L ≤ 256` and every 4-byte nonce, the splice produces a string of the
same length `L` that agrees with the input on the first 152 characters and
from character 160 on; only the 8 hex characters at offsets 152..159 are
replaced.  (For `L > 256` the code truncates the text at character 256, as
the counterexample shows.) -/
theorem claim6_splice_frame (orig : List Char) (nonceBin : List Nat) (sol : List Char)
    (h160 : 160 ≤ orig.length) (h256 : orig.length ≤ 256) (hnb : nonceBin.length = 4)
    (hs : submitWork orig nonceBin = some sol) :
    sol.length = orig.length ∧ sol.take 152 = orig.take 152 ∧
      sol.drop 160 = orig.drop 160 := by
  obtain _ | ⟨a, _ | ⟨b, _ | ⟨c, _ | ⟨d, _ | ⟨e, t⟩⟩⟩⟩⟩ := nonceBin
  · exact absurd hnb (by simp)
  · exact absurd hnb (by simp)
  · exact absurd hnb (by simp)
  · exact absurd hnb (by simp)
  · replace hs : spliceSolution orig
        (bytesToHex (packLE4 (bytereverse (unpackLE4 a b c d)))) = sol :=
      Option.some.inj hs
    have hnhlen : (bytesToHex (packLE4 (bytereverse (unpackLE4 a b c d)))).length = 8 := by
      rw [bytesToHex_length]
      rfl
    subst hs
    unfold spliceSolution
    have htk : (orig.take 152).length = 152 := by
      rw [List.length_take]
      omega
    refine ⟨?_, ?_, ?_⟩
    · simp only [List.length_append, hnhlen, htk, List.length_take, List.length_drop]
      omega
    · rw [List.append_assoc]
      exact List.take_left' htk
    · rw [List.drop_left' (by simp only [List.length_append, hnhlen, htk])]
      rw [List.take_of_length_le (by simp only [List.length_drop]; omega)]
  · exact absurd hnb (by simp only [List.length_cons]; omega)

set_option maxRecDepth 40000 in
/-- Witness for the amended C6 at a concrete 160-character header text. -/
theorem claim6_witness :
    (List.replicate 152 'a' ++ ['0', '4', '0', '3', '0', '2', '0', '1']).length =
        (List.replicate 160 'a').length ∧
      (List.replicate 152 'a' ++ ['0', '4', '0', '3', '0', '2', '0', '1']).take 152 =
        (List.replicate 160 'a').take 152 ∧
      (List.replicate 152 'a' ++ ['0', '4', '0', '3', '0', '2', '0', '1']).drop 160 =
        (List.replicate 160 'a').drop 160 :=
  claim6_splice_frame (List.replicate 160 'a') [1, 2, 3, 4]
    (List.replicate 152 'a' ++ ['0', '4', '0', '3', '0', '2', '0', '1'])
    (by decide) (by decide) (by decide) (by decide)

/-! ### Claim C9: fetch failure handling -/

/-- C9: given the three fetch-failure shapes, `iterate` sleeps and keeps the
bound for a missing response and for responses missing the `data` or
`target` field (no search, no submission), but an undecodable body makes
`json.loads` raise and the exception escapes `iterate`, killing the worker
loop instead of backing off. -/
theorem claim9_fetch_failures (bound : Int) (scantime : Nat) (timeDiff : ℚ) :
    iterateModel .badBody bound scantime timeDiff = .error () ∧
    iterateModel .noResponse bound scantime timeDiff = .ok ⟨bound, true, false, none⟩ ∧
    iterateModel (.objBody [("result", PyVal.obj [("target", PyVal.str [])])]) bound
        scantime timeDiff = .ok ⟨bound, true, false, none⟩ ∧
    iterateModel (.objBody [("result", PyVal.obj [("data", PyVal.str [])])]) bound
        scantime timeDiff = .ok ⟨bound, true, false, none⟩ :=
  ⟨rfl, rfl, rfl, rfl⟩

end Pyminer
